import Mathlib

/-!
Shallow embedding of the µRPC client (src/lib.rs, src/error.rs).

The duplex byte channel is modelled as two byte lists: `input` holds the
bytes the server will deliver (reads consume its head), `output` records
every byte written, in order.  Machine integers are `Nat`s; truncation to
u8/u16 is written explicitly as `% 256` / `% 65536` at the channel
boundary, matching the Rust types.  Fallible operations return
`Except Error α × Client`: the returned client carries the channel state
reached so far, exactly as Rust's `?` early-returns leave already-written
bytes on the transport.  Reading from an exhausted channel is the model
of an I/O error.
-/

namespace MicroRPC

/-- Wire value types (`enum Type` in lib.rs; `Type` collides with Lean's
universe keyword, so it is named `Ty` here). -/
inductive Ty
  | U8
  | U16
deriving DecidableEq, Repr

/-- µRPC values (`enum Value` in lib.rs): payloads are `Nat`s standing
for `u8` / `u16`. -/
inductive Value
  | U8 (val : Nat)
  | U16 (val : Nat)
deriving DecidableEq, Repr

/-- Well-formedness of a `Value`: the payload fits the Rust integer type. -/
def Value.wf : Value → Prop
  | .U8 val => val < 256
  | .U16 val => val < 65536

/-- Gets the type of a `Value` (`Value::ty` in lib.rs). -/
def Value.ty : Value → Ty
  | .U8 _ => Ty.U8
  | .U16 _ => Ty.U16

/-- A procedure descriptor (`struct Procedure` in lib.rs). -/
structure Procedure where
  id : Nat
  parameters : List Ty
  returns : Option Ty
deriving DecidableEq, Repr

/-- The error taxonomy (`enum Error` in error.rs).  `IoError` abstracts the
wrapped `io::Error` payload away. -/
inductive Error
  | IoError
  | GenericError
  | ProcOutOfRange
  | MismatchedArgumentCount (expected : Nat) (found : Nat)
  | MismatchedArguments (index : Nat) (expected : Ty) (found : Ty)
  | MismatchedVersion (ours : Nat) (theirs : Nat)
  | ProtocolError (description : String)
deriving DecidableEq, Repr

/-- Version byte implemented by this library (`const VERSION: u8 = 0`). -/
def VERSION : Nat := 0

/-- Request opcodes (`enum Request` in lib.rs, `#[repr(u8)]`). -/
inductive Request
  | Version
  | Enumerate
  | Call
deriving DecidableEq, Repr

/-- The `u8` discriminant of a request opcode (0, 1, 2). -/
def Request.toNat : Request → Nat
  | .Version => 0
  | .Enumerate => 1
  | .Call => 2

/-- The client (`struct Client` in lib.rs) together with its channel.
`input` is what remains to be read from the server, `output` is the
write trace. -/
structure Client where
  input : List Nat
  output : List Nat
  procedures : Option (List Procedure)
deriving DecidableEq, Repr

/-- Reads one byte from the channel (`byteorder::ReadBytesExt::read_u8`);
an exhausted channel is an I/O error. -/
def Client.read_u8 (c : Client) : Except Error Nat × Client :=
  match c.input with
  | [] => (.error .IoError, c)
  | b :: rest => (.ok b, { c with input := rest })

/-- Writes one byte to the channel (`byteorder::WriteBytesExt::write_u8`);
the argument is truncated to its low 8 bits, as the Rust `u8` type does. -/
def Client.write_u8 (c : Client) (b : Nat) : Client :=
  { c with output := c.output ++ [b % 256] }

/-- Reads a big-endian `u16` (`read_u16::<NetworkEndian>`). -/
def Client.read_u16 (c : Client) : Except Error Nat × Client :=
  match c.read_u8 with
  | (.error e, c) => (.error e, c)
  | (.ok hi, c) =>
    match c.read_u8 with
    | (.error e, c) => (.error e, c)
    | (.ok lo, c) => (.ok (hi * 256 + lo), c)

/-- Writes a big-endian `u16` (`write_u16::<NetworkEndian>`). -/
def Client.write_u16 (c : Client) (v : Nat) : Client :=
  (c.write_u8 ((v % 65536) / 256)).write_u8 (v % 256)

/-- Reads a `Type` from the wire (`Type::read` in lib.rs). -/
def Ty.read (c : Client) : Except Error Ty × Client :=
  match c.read_u8 with
  | (.error e, c) => (.error e, c)
  | (.ok 0, c) => (.ok Ty.U8, c)
  | (.ok 1, c) => (.ok Ty.U16, c)
  | (.ok _, c) => (.error (.ProtocolError "invalid type"), c)

/-- Wire byte of a `Type` (0x00 = U8, 0x01 = U16, spec §6); the inverse of
`Ty.read`, used to describe server-supplied byte streams. -/
def Ty.encode : Ty → Nat
  | .U8 => 0
  | .U16 => 1

/-- Reads a `Value` of a given `Type` (`Value::read` in lib.rs): one byte
for U8, two big-endian bytes combined as `msb << 8 | lsb` for U16. -/
def Value.read (ty : Ty) (c : Client) : Except Error Value × Client :=
  match ty with
  | .U8 =>
    match c.read_u8 with
    | (.error e, c) => (.error e, c)
    | (.ok b, c) => (.ok (Value.U8 b), c)
  | .U16 =>
    match c.read_u8 with
    | (.error e, c) => (.error e, c)
    | (.ok msb, c) =>
      match c.read_u8 with
      | (.error e, c) => (.error e, c)
      | (.ok lsb, c) => (.ok (Value.U16 ((msb <<< 8) ||| lsb)), c)

/-- Writes a `Value` to the channel (`Value::write` in lib.rs). -/
def Value.write (v : Value) (c : Client) : Client :=
  match v with
  | .U8 val => c.write_u8 val
  | .U16 val => c.write_u16 val

/-- The bytes `Value.write` appends: 1 byte for U8, 2 big-endian bytes
for U16 (payloads taken modulo the Rust integer width). -/
def Value.encode : Value → List Nat
  | .U8 val => [val % 256]
  | .U16 val => [(val % 65536) / 256, val % 256]

/-- Reads a result byte that may report failure (`Client::read_result`). -/
def Client.read_result (c : Client) : Except Error Unit × Client :=
  match c.read_u8 with
  | (.error e, c) => (.error e, c)
  | (.ok 0, c) => (.ok (), c)
  | (.ok 1, c) => (.error .GenericError, c)
  | (.ok _, c) => (.error (.ProtocolError "invalid result byte"), c)

/-- Reads a result byte of an infallible request (`Client::read_success`). -/
def Client.read_success (c : Client) : Except Error Unit × Client :=
  match c.read_u8 with
  | (.error e, c) => (.error e, c)
  | (.ok 0, c) => (.ok (), c)
  | (.ok _, c) => (.error (.ProtocolError "invalid result of infallible request"), c)

/-- The optional return `Type` of a procedure descriptor: read only when
the flags byte had bit 7 set (lib.rs lines 70–74). -/
def readReturnTy (has : Bool) (c : Client) : Except Error (Option Ty) × Client :=
  if has then
    match Ty.read c with
    | (.error e, c) => (.error e, c)
    | (.ok t, c) => (.ok (some t), c)
  else
    (.ok none, c)

/-- Reads `n` parameter `Type`s in order (the inner loop of
`Client::enumerate`, lib.rs lines 76–79). -/
def readParams : Nat → Client → Except Error (List Ty) × Client
  | 0, c => (.ok [], c)
  | n + 1, c =>
    match Ty.read c with
    | (.error e, c) => (.error e, c)
    | (.ok t, c) =>
      match readParams n c with
      | (.error e, c) => (.error e, c)
      | (.ok ts, c) => (.ok (t :: ts), c)

/-- One iteration of the enumeration loop (lib.rs lines 66–85): flags byte,
optional return type, then the parameter types, assembled with id `i`. -/
def readProcedure (i : Nat) (c : Client) : Except Error Procedure × Client :=
  match c.read_u8 with
  | (.error e, c) => (.error e, c)
  | (.ok byte0, c) =>
    match readReturnTy (byte0 &&& 0x80 != 0) c with
    | (.error e, c) => (.error e, c)
    | (.ok ret, c) =>
      match readParams (byte0 &&& 0x7f) c with
      | (.error e, c) => (.error e, c)
      | (.ok params, c) => (.ok ⟨i, params, ret⟩, c)

/-- The enumeration loop `for i in 0..num_procs`: reads `n` procedure
descriptors, assigning ids `i, i+1, …` by position. -/
def readProcedures : Nat → Nat → Client → Except Error (List Procedure) × Client
  | _, 0, c => (.ok [], c)
  | i, n + 1, c =>
    match readProcedure i c with
    | (.error e, c) => (.error e, c)
    | (.ok p, c) =>
      match readProcedures (i + 1) n c with
      | (.error e, c) => (.error e, c)
      | (.ok ps, c) => (.ok (p :: ps), c)

/-- Re-enumerates the server's exported procedures (`Client::enumerate`):
version handshake, then the procedure table; the cache is replaced only
after the whole table has been read. -/
def Client.enumerate (c : Client) : Except Error (List Procedure) × Client :=
  match (c.write_u8 Request.Version.toNat).read_success with
  | (.error e, c) => (.error e, c)
  | (.ok _, c) =>
    match c.read_u8 with
    | (.error e, c) => (.error e, c)
    | (.ok server_version, c) =>
      if server_version != VERSION then
        (.error (.MismatchedVersion VERSION server_version), c)
      else
        match (c.write_u8 Request.Enumerate.toNat).read_success with
        | (.error e, c) => (.error e, c)
        | (.ok _, c) =>
          match c.read_u16 with
          | (.error e, c) => (.error e, c)
          | (.ok num_procs, c) =>
            match readProcedures 0 num_procs c with
            | (.error e, c) => (.error e, c)
            | (.ok procs, c) => (.ok procs, { c with procedures := some procs })

/-- Gets the list of exported procedures (`Client::procedures`): the cached
table if present, otherwise the result of `enumerate`.  (Named
`getProcedures` because `Client.procedures` is the field projection.) -/
def Client.getProcedures (c : Client) : Except Error (List Procedure) × Client :=
  match c.procedures with
  | some procs => (.ok procs, c)
  | none => c.enumerate

/-- Writes each argument in order (the loop in `Client::call`). -/
def writeArgs : List Value → Client → Client
  | [], c => c
  | arg :: rest, c => writeArgs rest (arg.write c)

/-- The argument-validation loop of `Client::call`:
`arguments.iter().zip(parameters.iter()).enumerate()`, returning the first
position whose supplied type differs from the declared one, together with
the expected and found types.  `zip` stops at the shorter list. -/
def findMismatch : Nat → List Value → List Ty → Option (Nat × Ty × Ty)
  | _, [], _ => none
  | _, _, [] => none
  | i, got :: gs, expected :: es =>
    if got.ty != expected then some (i, expected, got.ty)
    else findMismatch (i + 1) gs es

/-- Placeholder descriptor for the (unreachable) out-of-bounds index in
`procs[id as usize]`; the access is guarded by the length check. -/
def defaultProcedure : Procedure := ⟨0, [], none⟩

/-- Calls a procedure (`Client::call`): table lookup, argument validation,
request transmission, response decoding.  The reported mismatch index is
cast to `u8` (`i as u8`), hence the `% 256`. -/
def Client.call (c : Client) (id : Nat) (arguments : List Value) :
    Except Error (Option Value) × Client :=
  match c.getProcedures with
  | (.error e, c) => (.error e, c)
  | (.ok procs, c) =>
    if procs.length ≤ id then (.error .ProcOutOfRange, c)
    else
      match findMismatch 0 arguments (procs.getD id defaultProcedure).parameters with
      | some (i, expected, found) =>
        (.error (.MismatchedArguments (i % 256) expected found), c)
      | none =>
        match (writeArgs arguments ((c.write_u8 Request.Call.toNat).write_u16 id)).read_result with
        | (.error e, c) => (.error e, c)
        | (.ok _, c) =>
          match c.getProcedures with
          | (.error e, c) => (.error e, c)
          | (.ok procs, c) =>
            match (procs.getD id defaultProcedure).returns with
            | some ret_ty =>
              match Value.read ret_ty c with
              | (.error e, c) => (.error e, c)
              | (.ok retval, c) => (.ok (some retval), c)
            | none => (.ok none, c)

end MicroRPC

namespace MicroRPC

/-! ### Arithmetic helper: `|||` of disjoint bit ranges is addition -/

/-- Oring a multiple of `2 ^ n` with a value below `2 ^ n` is addition. -/
theorem lor_two_pow_mul_add (n : Nat) : ∀ a b : Nat, b < 2 ^ n → (2 ^ n * a) ||| b = 2 ^ n * a + b := by
  induction n with
  | zero =>
    intro a b hb
    interval_cases b
    simp
  | succ n ih =>
    intro a b hb
    have hpow : (2 : Nat) ^ (n + 1) = 2 * 2 ^ n := by ring
    have hb2 : b.div2 < 2 ^ n := by
      rw [Nat.div2_val]
      omega
    have hb3 : 2 * b.div2 + b.bodd.toNat = b := by
      have h := Nat.bodd_add_div2 b
      omega
    have e1 : Nat.bit false (2 ^ n * a) = 2 ^ (n + 1) * a := by
      rw [Nat.bit_val]
      simp
      ring
    have e2 : Nat.bit b.bodd b.div2 = b := Nat.bit_decomp b
    calc (2 ^ (n + 1) * a) ||| b
        = Nat.bit false (2 ^ n * a) ||| Nat.bit b.bodd b.div2 := by rw [e1, e2]
      _ = Nat.bit (false || b.bodd) ((2 ^ n * a) ||| b.div2) := Nat.lor_bit _ _ _ _
      _ = Nat.bit b.bodd (2 ^ n * a + b.div2) := by rw [ih a b.div2 hb2, Bool.false_or]
      _ = 2 * (2 ^ n * a + b.div2) + b.bodd.toNat := Nat.bit_val _ _
      _ = 2 * (2 ^ n * a) + (2 * b.div2 + b.bodd.toNat) := by ring
      _ = 2 ^ (n + 1) * a + b := by rw [hb3, hpow]; ring

/-- Big-endian byte reassembly: `msb <<< 8 ||| lsb` is `msb * 256 + lsb`
for any low byte `lsb < 256`. -/
theorem shiftLeft_eight_lor (a b : Nat) (hb : b < 256) : (a <<< 8) ||| b = a * 256 + b := by
  have h8 : (2 : Nat) ^ 8 = 256 := by norm_num
  have h := lor_two_pow_mul_add 8 a b (h8.symm ▸ hb)
  rw [Nat.shiftLeft_eq, h8, Nat.mul_comm a 256]
  rw [h8] at h
  exact h

/-! ### The procedure cache is untouched by channel reads -/

/-- Reading a byte leaves the cached procedure table unchanged. -/
theorem procs_read_u8 (c : Client) : (c.read_u8).2.procedures = c.procedures := by
  unfold Client.read_u8
  split <;> rfl

/-- Reading a `u16` leaves the cached procedure table unchanged. -/
theorem procs_read_u16 (c : Client) : (c.read_u16).2.procedures = c.procedures := by
  unfold Client.read_u16
  split
  next e c1 heq =>
    have h := procs_read_u8 c
    rw [heq] at h
    exact h
  next hi c1 heq =>
    have h : c1.procedures = c.procedures := by
      have h0 := procs_read_u8 c
      rw [heq] at h0
      exact h0
    split
    next e c2 heq2 =>
      have h2 := procs_read_u8 c1
      rw [heq2] at h2
      exact Eq.trans h2 h
    next lo c2 heq2 =>
      have h2 := procs_read_u8 c1
      rw [heq2] at h2
      exact Eq.trans h2 h

/-- Reading a fallible result byte leaves the cache unchanged. -/
theorem procs_read_result (c : Client) : (c.read_result).2.procedures = c.procedures := by
  unfold Client.read_result
  rcases h1 : c.read_u8 with ⟨r1, c1⟩
  have hp1 : c1.procedures = c.procedures := by rw [← procs_read_u8 c, h1]
  cases r1 with
  | error e => simpa using hp1
  | ok b =>
    match b with
    | 0 => simpa using hp1
    | 1 => simpa using hp1
    | (n + 2) => simpa using hp1

/-- Reading an infallible result byte leaves the cache unchanged. -/
theorem procs_read_success (c : Client) : (c.read_success).2.procedures = c.procedures := by
  unfold Client.read_success
  rcases h1 : c.read_u8 with ⟨r1, c1⟩
  have hp1 : c1.procedures = c.procedures := by rw [← procs_read_u8 c, h1]
  cases r1 with
  | error e => simpa using hp1
  | ok b =>
    match b with
    | 0 => simpa using hp1
    | (n + 1) => simpa using hp1

/-- Reading a `Type` leaves the cache unchanged. -/
theorem procs_Ty_read (c : Client) : (Ty.read c).2.procedures = c.procedures := by
  unfold Ty.read
  rcases h1 : c.read_u8 with ⟨r1, c1⟩
  have hp1 : c1.procedures = c.procedures := by rw [← procs_read_u8 c, h1]
  cases r1 with
  | error e => simpa using hp1
  | ok b =>
    match b with
    | 0 => simpa using hp1
    | 1 => simpa using hp1
    | (n + 2) => simpa using hp1

/-- Reading a `Value` leaves the cache unchanged. -/
theorem procs_Value_read (ty : Ty) (c : Client) : (Value.read ty c).2.procedures = c.procedures := by
  cases ty with
  | U8 =>
    simp only [Value.read]
    split
    next e c1 heq =>
      have h := procs_read_u8 c
      rw [heq] at h
      exact h
    next b c1 heq =>
      have h := procs_read_u8 c
      rw [heq] at h
      exact h
  | U16 =>
    simp only [Value.read]
    split
    next e c1 heq =>
      have h := procs_read_u8 c
      rw [heq] at h
      exact h
    next msb c1 heq =>
      have h : c1.procedures = c.procedures := by
        have h0 := procs_read_u8 c
        rw [heq] at h0
        exact h0
      split
      next e c2 heq2 =>
        have h2 := procs_read_u8 c1
        rw [heq2] at h2
        exact Eq.trans h2 h
      next lsb c2 heq2 =>
        have h2 := procs_read_u8 c1
        rw [heq2] at h2
        exact Eq.trans h2 h

/-- Reading an optional return `Type` leaves the cache unchanged. -/
theorem procs_readReturnTy (has : Bool) (c : Client) :
    (readReturnTy has c).2.procedures = c.procedures := by
  unfold readReturnTy
  cases has with
  | false => simp
  | true =>
    simp only [if_true]
    rcases h1 : Ty.read c with ⟨r1, c1⟩
    have hp1 : c1.procedures = c.procedures := by rw [← procs_Ty_read c, h1]
    cases r1 <;> simpa using hp1

/-- Reading a parameter list leaves the cache unchanged. -/
theorem procs_readParams (n : Nat) : ∀ c : Client, (readParams n c).2.procedures = c.procedures := by
  induction n with
  | zero => intro c; rfl
  | succ n ih =>
    intro c
    unfold readParams
    split
    next e c1 heq =>
      have h := procs_Ty_read c
      rw [heq] at h
      exact h
    next t c1 heq =>
      have h : c1.procedures = c.procedures := by
        have h0 := procs_Ty_read c
        rw [heq] at h0
        exact h0
      split
      next e c2 heq2 =>
        have h2 := ih c1
        rw [heq2] at h2
        exact Eq.trans h2 h
      next ts c2 heq2 =>
        have h2 := ih c1
        rw [heq2] at h2
        exact Eq.trans h2 h

/-- Reading one procedure descriptor leaves the cache unchanged. -/
theorem procs_readProcedure (i : Nat) (c : Client) :
    (readProcedure i c).2.procedures = c.procedures := by
  unfold readProcedure
  split
  next e c1 heq =>
    have h := procs_read_u8 c
    rw [heq] at h
    exact h
  next byte0 c1 heq =>
    have h : c1.procedures = c.procedures := by
      have h0 := procs_read_u8 c
      rw [heq] at h0
      exact h0
    split
    next e c2 heq2 =>
      have h2 := procs_readReturnTy (byte0 &&& 0x80 != 0) c1
      rw [heq2] at h2
      exact Eq.trans h2 h
    next ret c2 heq2 =>
      have h2 : c2.procedures = c1.procedures := by
        have h0 := procs_readReturnTy (byte0 &&& 0x80 != 0) c1
        rw [heq2] at h0
        exact h0
      split
      next e c3 heq3 =>
        have h3 := procs_readParams (byte0 &&& 0x7f) c2
        rw [heq3] at h3
        exact Eq.trans h3 (Eq.trans h2 h)
      next params c3 heq3 =>
        have h3 := procs_readParams (byte0 &&& 0x7f) c2
        rw [heq3] at h3
        exact Eq.trans h3 (Eq.trans h2 h)

/-- Reading the whole descriptor sequence leaves the cache unchanged. -/
theorem procs_readProcedures (n : Nat) : ∀ (i : Nat) (c : Client),
    (readProcedures i n c).2.procedures = c.procedures := by
  induction n with
  | zero => intro i c; rfl
  | succ n ih =>
    intro i c
    unfold readProcedures
    split
    next e c1 heq =>
      have h := procs_readProcedure i c
      rw [heq] at h
      exact h
    next p c1 heq =>
      have h : c1.procedures = c.procedures := by
        have h0 := procs_readProcedure i c
        rw [heq] at h0
        exact h0
      split
      next e c2 heq2 =>
        have h2 := ih (i + 1) c1
        rw [heq2] at h2
        exact Eq.trans h2 h
      next ps c2 heq2 =>
        have h2 := ih (i + 1) c1
        rw [heq2] at h2
        exact Eq.trans h2 h

end MicroRPC

namespace MicroRPC

/-- Writing a byte leaves the cache unchanged. -/
theorem procs_write_u8 (c : Client) (b : Nat) : (c.write_u8 b).procedures = c.procedures := rfl

/-- Writing a `u16` leaves the cache unchanged. -/
theorem procs_write_u16 (c : Client) (v : Nat) : (c.write_u16 v).procedures = c.procedures := rfl

/-- Writing the arguments leaves the cache unchanged. -/
theorem procs_writeArgs (args : List Value) : ∀ c : Client,
    (writeArgs args c).procedures = c.procedures := by
  induction args with
  | nil => intro c; rfl
  | cons a rest ih =>
    intro c
    unfold writeArgs
    rw [ih (a.write c)]
    cases a <;> rfl

/-- What `enumerate` does to the cache: on success the cache becomes the
table just read, on failure it is untouched. -/
theorem procs_enumerate (c : Client) :
    (c.enumerate).2.procedures =
      (match (c.enumerate).1 with
        | .ok ps => some ps
        | .error _ => c.procedures) := by
  unfold Client.enumerate
  split
  next e c1 heq =>
    have h1 := procs_read_success (c.write_u8 Request.Version.toNat)
    rw [heq] at h1
    simpa using h1
  next u c1 heq =>
    have h1 : c1.procedures = c.procedures := by
      have h0 := procs_read_success (c.write_u8 Request.Version.toNat)
      rw [heq] at h0
      exact h0
    split
    next e c2 heq2 =>
      have h2 := procs_read_u8 c1
      rw [heq2] at h2
      simpa using h2.trans h1
    next v c2 heq2 =>
      have h2 : c2.procedures = c.procedures := by
        have h0 := procs_read_u8 c1
        rw [heq2] at h0
        exact h0.trans h1
      split
      · simpa using h2
      · split
        next e c3 heq3 =>
          have h3 := procs_read_success (c2.write_u8 Request.Enumerate.toNat)
          rw [heq3] at h3
          simpa using h3.trans h2
        next u2 c3 heq3 =>
          have h3 : c3.procedures = c.procedures := by
            have h0 := procs_read_success (c2.write_u8 Request.Enumerate.toNat)
            rw [heq3] at h0
            exact h0.trans h2
          split
          next e c4 heq4 =>
            have h4 := procs_read_u16 c3
            rw [heq4] at h4
            simpa using h4.trans h3
          next num c4 heq4 =>
            have h4 : c4.procedures = c.procedures := by
              have h0 := procs_read_u16 c3
              rw [heq4] at h0
              exact h0.trans h3
            split
            next e c5 heq5 =>
              have h5 := procs_readProcedures num 0 c4
              rw [heq5] at h5
              simpa using h5.trans h4
            next ps c5 heq5 => simp

/-- A failed `enumerate` leaves the cache exactly as it was. -/
theorem enumerate_error_procs (c : Client) (e : Error) (c' : Client)
    (h : c.enumerate = (.error e, c')) : c'.procedures = c.procedures := by
  have key := procs_enumerate c
  rw [h] at key
  simpa using key

/-- A successful `enumerate` installs exactly the table it returns. -/
theorem enumerate_ok_procs (c : Client) (ps : List Procedure) (c' : Client)
    (h : c.enumerate = (.ok ps, c')) : c'.procedures = some ps := by
  have key := procs_enumerate c
  rw [h] at key
  simpa using key

/-- A successful `readParams n` returns exactly `n` types. -/
theorem readParams_length (n : Nat) : ∀ (c : Client) (ts : List Ty) (c' : Client),
    readParams n c = (.ok ts, c') → ts.length = n := by
  induction n with
  | zero =>
    intro c ts c' h
    unfold readParams at h
    injection h with h1 h2
    injection h1 with h1
    subst h1
    rfl
  | succ n ih =>
    intro c ts c' h
    unfold readParams at h
    split at h
    next e c1 heq =>
      injection h with h1 h2
      exact Except.noConfusion h1
    next t c1 heq =>
      split at h
      next e c2 heq2 =>
        injection h with h1 h2
        exact Except.noConfusion h1
      next ts2 c2 heq2 =>
        injection h with h1 h2
        injection h1 with h1
        subst h1
        simp [ih c1 ts2 c2 heq2]

/-- A procedure descriptor read by the enumeration loop carries the loop
index as id and at most 127 parameters (the low 7 bits of the flags). -/
theorem readProcedure_ok (i : Nat) (c : Client) (p : Procedure) (c' : Client)
    (h : readProcedure i c = (.ok p, c')) : p.id = i ∧ p.parameters.length ≤ 127 := by
  unfold readProcedure at h
  split at h
  next e c1 heq =>
    injection h with h1 h2
    exact Except.noConfusion h1
  next byte0 c1 heq =>
    split at h
    next e c2 heq2 =>
      injection h with h1 h2
      exact Except.noConfusion h1
    next ret c2 heq2 =>
      split at h
      next e c3 heq3 =>
        injection h with h1 h2
        exact Except.noConfusion h1
      next params c3 heq3 =>
        injection h with h1 h2
        injection h1 with h1
        subst h1
        refine ⟨rfl, ?_⟩
        have hl := readParams_length (byte0 &&& 0x7f) c2 params c3 heq3
        simpa [hl] using Nat.and_le_right

/-- The table read by the enumeration loop has one entry per index, ids
ascending from the start index, each with at most 127 parameters. -/
theorem readProcedures_ok (n : Nat) : ∀ (i : Nat) (c : Client) (ps : List Procedure) (c' : Client),
    readProcedures i n c = (.ok ps, c') →
    ps.length = n ∧ ∀ j (hj : j < ps.length),
      (ps.get ⟨j, hj⟩).id = i + j ∧ (ps.get ⟨j, hj⟩).parameters.length ≤ 127 := by
  induction n with
  | zero =>
    intro i c ps c' h
    unfold readProcedures at h
    injection h with h1 h2
    injection h1 with h1
    subst h1
    exact ⟨rfl, fun j hj => absurd hj (by simp)⟩
  | succ n ih =>
    intro i c ps c' h
    unfold readProcedures at h
    split at h
    next e c1 heq =>
      injection h with h1 h2
      exact Except.noConfusion h1
    next p c1 heq =>
      split at h
      next e c2 heq2 =>
        injection h with h1 h2
        exact Except.noConfusion h1
      next ps2 c2 heq2 =>
        injection h with h1 h2
        injection h1 with h1
        subst h1
        obtain ⟨hp1, hp2⟩ := readProcedure_ok i c p c1 heq
        obtain ⟨hlen, hrest⟩ := ih (i + 1) c1 ps2 c2 heq2
        refine ⟨by simp [hlen], ?_⟩
        intro j hj
        cases j with
        | zero => simpa using ⟨hp1, hp2⟩
        | succ j =>
          have hj' : j < ps2.length := by simpa using hj
          obtain ⟨ha, hb⟩ := hrest j hj'
          refine ⟨?_, ?_⟩
          · rw [List.get_cons_succ]
            rw [show i + (j + 1) = (i + 1) + j from by omega]
            exact ha
          · rw [List.get_cons_succ]
            exact hb

/-- A successful `enumerate` returns a table whose entry at index `j` has
id `j` and at most 127 parameters. -/
theorem enumerate_ok_table (c : Client) (ps : List Procedure) (c' : Client)
    (h : c.enumerate = (.ok ps, c')) :
    ∀ j (hj : j < ps.length),
      (ps.get ⟨j, hj⟩).id = j ∧ (ps.get ⟨j, hj⟩).parameters.length ≤ 127 := by
  unfold Client.enumerate at h
  split at h
  next e c1 heq =>
    injection h with h1 h2
    exact Except.noConfusion h1
  next u c1 heq =>
    split at h
    next e c2 heq2 =>
      injection h with h1 h2
      exact Except.noConfusion h1
    next v c2 heq2 =>
      split at h
      · injection h with h1 h2
        exact Except.noConfusion h1
      · split at h
        next e c3 heq3 =>
          injection h with h1 h2
          exact Except.noConfusion h1
        next u2 c3 heq3 =>
          split at h
          next e c4 heq4 =>
            injection h with h1 h2
            exact Except.noConfusion h1
          next num c4 heq4 =>
            split at h
            next e c5 heq5 =>
              injection h with h1 h2
              exact Except.noConfusion h1
            next ps2 c5 heq5 =>
              injection h with h1 h2
              injection h1 with h1
              subst h1
              intro j hj
              have := (readProcedures_ok num 0 c4 ps2 c5 heq5).2 j hj
              simpa using this

end MicroRPC

namespace MicroRPC

/-- On a populated cache, `getProcedures` returns the cached table and
leaves the client (channel included) completely unchanged. -/
theorem getProcedures_cached (c : Client) (procs : List Procedure)
    (h : c.procedures = some procs) : c.getProcedures = (.ok procs, c) := by
  unfold Client.getProcedures
  rw [h]

/-- On an empty cache, `getProcedures` is exactly `enumerate`. -/
theorem getProcedures_none (c : Client) (h : c.procedures = none) :
    c.getProcedures = c.enumerate := by
  unfold Client.getProcedures
  rw [h]

/-- After a successful `getProcedures`, the cache holds the returned table. -/
theorem getProcedures_ok_procs (c : Client) (ps : List Procedure) (c' : Client)
    (h : c.getProcedures = (.ok ps, c')) : c'.procedures = some ps := by
  unfold Client.getProcedures at h
  split at h
  next procs heq =>
    injection h with h1 h2
    injection h1 with h1
    subst h1
    subst h2
    exact heq
  next heq => exact enumerate_ok_procs c ps c' h

/-- A failed `getProcedures` leaves the cache as it was. -/
theorem getProcedures_error_procs (c : Client) (e : Error) (c' : Client)
    (h : c.getProcedures = (.error e, c')) : c'.procedures = c.procedures := by
  unfold Client.getProcedures at h
  split at h
  next procs heq =>
    injection h with h1 h2
    exact Except.noConfusion h1
  next heq => exact enumerate_error_procs c e c' h

/-- `call` leaves the cache exactly as its initial `getProcedures` left it:
the rest of the call path never touches the cached table. -/
theorem procs_call (c : Client) (id : Nat) (args : List Value) :
    (c.call id args).2.procedures = (c.getProcedures).2.procedures := by
  unfold Client.call
  split
  next e c1 heq => rw [heq]
  next procs c1 heq =>
    rw [heq]
    split
    · rfl
    · split
      next i expected found heqf => rfl
      next heqf =>
        have hc1 : c1.procedures = some procs := getProcedures_ok_procs c procs c1 heq
        have hw : (writeArgs args ((c1.write_u8 Request.Call.toNat).write_u16 id)).procedures
            = some procs := by
          rw [procs_writeArgs]
          exact hc1
        split
        next e c2 heq2 =>
          have h0 := procs_read_result (writeArgs args ((c1.write_u8 Request.Call.toNat).write_u16 id))
          rw [heq2] at h0
          exact h0.trans (hw.trans hc1.symm)
        next u c2 heq2 =>
          have h0 := procs_read_result (writeArgs args ((c1.write_u8 Request.Call.toNat).write_u16 id))
          rw [heq2] at h0
          have hc2 : c2.procedures = some procs := h0.trans hw
          rw [getProcedures_cached c2 procs hc2]
          split
          next e c3 heqr =>
            injection heqr with h1 h2
            exact Except.noConfusion h1
          next ps2 c3 heqr =>
            injection heqr with h1 h2
            injection h1 with h1
            subst h1
            subst h2
            split
            next ret_ty heqr2 =>
              split
              next e c3 heq3 =>
                have h3 := procs_Value_read ret_ty c2
                rw [heq3] at h3
                exact h3.trans (hc2.trans hc1.symm)
              next retval c3 heq3 =>
                have h3 := procs_Value_read ret_ty c2
                rw [heq3] at h3
                exact h3.trans (hc2.trans hc1.symm)
            next heqr2 => exact hc2.trans hc1.symm

end MicroRPC

namespace MicroRPC

/-- Reading back an encoded `Type` byte yields that `Type` and consumes
exactly one byte. -/
theorem Ty_read_encode (t : Ty) (rest out : List Nat) (pr : Option (List Procedure)) :
    Ty.read ⟨t.encode :: rest, out, pr⟩ = (.ok t, ⟨rest, out, pr⟩) := by
  cases t <;> rfl

/-- Reading back an encoded parameter-type list yields that list in order
and consumes exactly its bytes. -/
theorem readParams_encode (ts : List Ty) : ∀ (rest out : List Nat) (pr : Option (List Procedure)),
    readParams ts.length ⟨ts.map Ty.encode ++ rest, out, pr⟩ = (.ok ts, ⟨rest, out, pr⟩) := by
  induction ts with
  | nil => intro rest out pr; rfl
  | cons t ts ih =>
    intro rest out pr
    simp only [List.length_cons, List.map_cons, List.cons_append]
    unfold readParams
    rw [Ty_read_encode t (ts.map Ty.encode ++ rest) out pr]
    show (match readParams ts.length ⟨ts.map Ty.encode ++ rest, out, pr⟩ with
          | (.error e, c) => (.error e, c)
          | (.ok ts2, c) => (.ok (t :: ts2), c))
        = ((.ok (t :: ts) : Except Error (List Ty)), (⟨rest, out, pr⟩ : Client))
    rw [ih rest out pr]

/-- The descriptor-parsing contract of the enumeration loop: a flags byte
whose bit 7 matches the presence of the return type and whose low 7 bits
give the parameter count, followed by the encoded return type (if any) and
then the encoded parameter types in order, parses to exactly
`Procedure{id := i, parameters := ts, returns := ret}`. -/
theorem readProcedure_encode (i byte0 : Nat) (ret : Option Ty) (ts : List Ty)
    (rest out : List Nat) (pr : Option (List Procedure))
    (hlen : ts.length = byte0 &&& 0x7f)
    (hret : ret.isSome = (byte0 &&& 0x80 != 0)) :
    readProcedure i ⟨byte0 :: ((ret.toList.map Ty.encode) ++ (ts.map Ty.encode ++ rest)), out, pr⟩
      = (.ok ⟨i, ts, ret⟩, ⟨rest, out, pr⟩) := by
  cases ret with
  | none =>
    have hbit : (byte0 &&& 0x80 != 0) = false := by simpa using hret.symm
    simp only [Option.toList, List.map_nil, List.nil_append]
    unfold readProcedure
    rw [show Client.read_u8 ⟨byte0 :: (ts.map Ty.encode ++ rest), out, pr⟩
      = (.ok byte0, ⟨ts.map Ty.encode ++ rest, out, pr⟩) from rfl]
    show (match readReturnTy (byte0 &&& 0x80 != 0) ⟨ts.map Ty.encode ++ rest, out, pr⟩ with
          | (.error e, c) => (.error e, c)
          | (.ok ret, c) =>
            match readParams (byte0 &&& 0x7f) c with
            | (.error e, c) => (.error e, c)
            | (.ok params, c) => (.ok ⟨i, params, ret⟩, c))
        = ((.ok ⟨i, ts, none⟩ : Except Error Procedure), (⟨rest, out, pr⟩ : Client))
    rw [hbit]
    rw [show readReturnTy false ⟨ts.map Ty.encode ++ rest, out, pr⟩
      = (.ok none, ⟨ts.map Ty.encode ++ rest, out, pr⟩) from rfl]
    show (match readParams (byte0 &&& 0x7f) ⟨ts.map Ty.encode ++ rest, out, pr⟩ with
          | (.error e, c) => (.error e, c)
          | (.ok params, c) => (.ok ⟨i, params, none⟩, c))
        = ((.ok ⟨i, ts, none⟩ : Except Error Procedure), (⟨rest, out, pr⟩ : Client))
    rw [← hlen, readParams_encode ts rest out pr]
  | some t =>
    have hbit : (byte0 &&& 0x80 != 0) = true := by simpa using hret.symm
    simp only [Option.toList, List.map_cons, List.map_nil, List.cons_append, List.nil_append]
    unfold readProcedure
    rw [show Client.read_u8 ⟨byte0 :: (t.encode :: (ts.map Ty.encode ++ rest)), out, pr⟩
      = (.ok byte0, ⟨t.encode :: (ts.map Ty.encode ++ rest), out, pr⟩) from rfl]
    show (match readReturnTy (byte0 &&& 0x80 != 0) ⟨t.encode :: (ts.map Ty.encode ++ rest), out, pr⟩ with
          | (.error e, c) => (.error e, c)
          | (.ok ret, c) =>
            match readParams (byte0 &&& 0x7f) c with
            | (.error e, c) => (.error e, c)
            | (.ok params, c) => (.ok ⟨i, params, ret⟩, c))
        = ((.ok ⟨i, ts, some t⟩ : Except Error Procedure), (⟨rest, out, pr⟩ : Client))
    rw [hbit]
    rw [show readReturnTy true ⟨t.encode :: (ts.map Ty.encode ++ rest), out, pr⟩
      = (.ok (some t), ⟨ts.map Ty.encode ++ rest, out, pr⟩) from by
        unfold readReturnTy
        rw [if_pos rfl]
        rw [Ty_read_encode t (ts.map Ty.encode ++ rest) out pr]]
    show (match readParams (byte0 &&& 0x7f) ⟨ts.map Ty.encode ++ rest, out, pr⟩ with
          | (.error e, c) => (.error e, c)
          | (.ok params, c) => (.ok ⟨i, params, some t⟩, c))
        = ((.ok ⟨i, ts, some t⟩ : Except Error Procedure), (⟨rest, out, pr⟩ : Client))
    rw [← hlen, readParams_encode ts rest out pr]

end MicroRPC

namespace MicroRPC

/-- The validation loop finds the leftmost mismatching position: if
position `i` mismatches and every earlier position matches, the loop
reports offset `k + i` with the declared and supplied types. -/
theorem findMismatch_first (args : List Value) : ∀ (params : List Ty) (i k : Nat)
    (hia : i < args.length) (hip : i < params.length),
    (args.get ⟨i, hia⟩).ty ≠ params.get ⟨i, hip⟩ →
    (∀ j (hj1 : j < args.length) (hj2 : j < params.length), j < i →
      (args.get ⟨j, hj1⟩).ty = params.get ⟨j, hj2⟩) →
    findMismatch k args params = some (k + i, params.get ⟨i, hip⟩, (args.get ⟨i, hia⟩).ty) := by
  induction args with
  | nil =>
    intro params i k hia
    exact absurd hia (by simp)
  | cons a as ih =>
    intro params i k hia hip hne hfirst
    cases params with
    | nil => exact absurd hip (by simp)
    | cons p ps =>
      cases i with
      | zero =>
        have hne' : a.ty ≠ p := by simpa using hne
        simp [findMismatch, hne']
      | succ i' =>
        have heq : a.ty = p := by
          simpa using hfirst 0 (by simp) (by simp) (Nat.succ_pos i')
        unfold findMismatch
        rw [if_neg (by simp [heq])]
        have hia' : i' < as.length := by simpa using hia
        have hip' : i' < ps.length := by simpa using hip
        have hne' : (as.get ⟨i', hia'⟩).ty ≠ ps.get ⟨i', hip'⟩ := by simpa using hne
        have hfirst' : ∀ j (hj1 : j < as.length) (hj2 : j < ps.length), j < i' →
            (as.get ⟨j, hj1⟩).ty = ps.get ⟨j, hj2⟩ := by
          intro j hj1 hj2 hji
          have := hfirst (j + 1) (by simpa using hj1) (by simpa using hj2) (by omega)
          simpa using this
        have hrec := ih ps i' (k + 1) hia' hip' hne' hfirst'
        rw [List.get_cons_succ, List.get_cons_succ,
          show k + (i' + 1) = (k + 1) + i' from by omega]
        exact hrec

/-- Any mismatch the validation loop reports lies within the declared
parameter list: the reported offset is below `k` plus the parameter count. -/
theorem findMismatch_lt (args : List Value) : ∀ (params : List Ty) (k i : Nat) (e f : Ty),
    findMismatch k args params = some (i, e, f) → i < k + params.length := by
  induction args with
  | nil =>
    intro params k i e f h
    simp [findMismatch] at h
  | cons a as ih =>
    intro params k i e f h
    cases params with
    | nil =>
      simp [findMismatch] at h
    | cons p ps =>
      unfold findMismatch at h
      by_cases hc : (a.ty != p) = true
      · rw [if_pos hc] at h
        injection h with h1
        injection h1 with h2 h3
        subst h2
        simp
      · rw [if_neg hc] at h
        have := ih ps (k + 1) i e f h
        simp only [List.length_cons]
        omega

/-- The invariant of spec §3: whenever the cache is populated, the entry
at index `i` has id `i`. -/
def idIndexed (c : Client) : Prop :=
  ∀ procs, c.procedures = some procs →
    ∀ i (h : i < procs.length), (procs.get ⟨i, h⟩).id = i

/-- The invariant only depends on the cache field. -/
theorem idIndexed_of_eq {c c' : Client} (h : c'.procedures = c.procedures)
    (hc : idIndexed c) : idIndexed c' := by
  intro procs hp
  exact hc procs (h.symm.trans hp)

/-- `enumerate` preserves (and on success establishes) the invariant. -/
theorem idIndexed_enumerate (c : Client) (hc : idIndexed c) : idIndexed (c.enumerate).2 := by
  have key := procs_enumerate c
  cases hr : (c.enumerate).1 with
  | error e =>
    rw [hr] at key
    simp only [] at key
    exact idIndexed_of_eq key hc
  | ok ps =>
    rw [hr] at key
    simp only [] at key
    intro procs hp i hi
    rw [key] at hp
    injection hp with hp
    subst hp
    exact (enumerate_ok_table c ps (c.enumerate).2 (by rw [← hr]) i hi).1

/-- `getProcedures` preserves the invariant. -/
theorem idIndexed_getProcedures (c : Client) (hc : idIndexed c) :
    idIndexed (c.getProcedures).2 := by
  cases hp : c.procedures with
  | some procs =>
    rw [getProcedures_cached c procs hp]
    exact hc
  | none =>
    rw [getProcedures_none c hp]
    exact idIndexed_enumerate c hc

end MicroRPC

namespace MicroRPC

/-- With a populated cache, `call`'s initial table lookup is pure: the call
reduces to validation followed by transmission, on the unchanged client. -/
theorem call_cached_eq (c : Client) (procs : List Procedure)
    (hc : c.procedures = some procs) (id : Nat) (args : List Value) :
    c.call id args =
      (if procs.length ≤ id then (.error .ProcOutOfRange, c)
       else
         match findMismatch 0 args (procs.getD id defaultProcedure).parameters with
         | some (i, expected, found) =>
           (.error (.MismatchedArguments (i % 256) expected found), c)
         | none =>
           match (writeArgs args ((c.write_u8 Request.Call.toNat).write_u16 id)).read_result with
           | (.error e, c) => (.error e, c)
           | (.ok _, c) =>
             match c.getProcedures with
             | (.error e, c) => (.error e, c)
             | (.ok procs, c) =>
               match (procs.getD id defaultProcedure).returns with
               | some ret_ty =>
                 match Value.read ret_ty c with
                 | (.error e, c) => (.error e, c)
                 | (.ok retval, c) => (.ok (some retval), c)
               | none => (.ok none, c)) := by
  unfold Client.call
  rw [getProcedures_cached c procs hc]

/-- The only I/O failure a byte read can report is the I/O error. -/
theorem read_u8_error (c : Client) (e : Error) (c' : Client)
    (h : c.read_u8 = (.error e, c')) : e = .IoError := by
  unfold Client.read_u8 at h
  split at h
  · injection h with h1 h2
    injection h1 with h1
    exact h1.symm
  · injection h with h1 h2
    exact Except.noConfusion h1

/-- `read_result` can only fail with the I/O error, the generic error, or
the invalid-result-byte protocol error — never an argument mismatch. -/
theorem read_result_error (c : Client) (e : Error) (c' : Client)
    (h : c.read_result = (.error e, c')) :
    e = .IoError ∨ e = .GenericError ∨ e = .ProtocolError "invalid result byte" := by
  unfold Client.read_result at h
  split at h
  next e1 c1 heq =>
    injection h with h1 h2
    injection h1 with h1
    subst h1
    exact Or.inl (read_u8_error c e1 c1 heq)
  next c1 heq =>
    injection h with h1 h2
    exact Except.noConfusion h1
  next c1 heq =>
    injection h with h1 h2
    injection h1 with h1
    exact Or.inr (Or.inl h1.symm)
  next b c1 heq =>
    injection h with h1 h2
    injection h1 with h1
    exact Or.inr (Or.inr h1.symm)

/-- `Value.read` can only fail with the I/O error. -/
theorem Value_read_error (ty : Ty) (c : Client) (e : Error) (c' : Client)
    (h : Value.read ty c = (.error e, c')) : e = .IoError := by
  cases ty with
  | U8 =>
    simp only [Value.read] at h
    split at h
    next e1 c1 heq =>
      injection h with h1 h2
      injection h1 with h1
      subst h1
      exact read_u8_error c e1 c1 heq
    next b c1 heq =>
      injection h with h1 h2
      exact Except.noConfusion h1
  | U16 =>
    simp only [Value.read] at h
    split at h
    next e1 c1 heq =>
      injection h with h1 h2
      injection h1 with h1
      subst h1
      exact read_u8_error c e1 c1 heq
    next msb c1 heq =>
      split at h
      next e1 c2 heq2 =>
        injection h with h1 h2
        injection h1 with h1
        subst h1
        exact read_u8_error c1 e1 c2 heq2
      next lsb c2 heq2 =>
        injection h with h1 h2
        exact Except.noConfusion h1

/-- On a populated cache whose procedures all declare at most 127
parameters, any argument-mismatch error a `call` reports carries an index
below 128. -/
theorem call_mismatched_index (c : Client) (procs : List Procedure)
    (hc : c.procedures = some procs)
    (hwf : ∀ p ∈ procs, p.parameters.length ≤ 127) :
    ∀ id args i e f c2,
      c.call id args = (.error (.MismatchedArguments i e f), c2) → i < 128 := by
  intro id args i e f c2 hcall
  rw [call_cached_eq c procs hc id args] at hcall
  by_cases hid : procs.length ≤ id
  · rw [if_pos hid] at hcall
    injection hcall with h1 h2
    injection h1 with h1
    exact Error.noConfusion h1
  · rw [if_neg hid] at hcall
    cases hfm : findMismatch 0 args (procs.getD id defaultProcedure).parameters with
    | some tup =>
      obtain ⟨i0, e0, f0⟩ := tup
      rw [hfm] at hcall
      split at hcall
      next i1 e1 f1 heq1 =>
        injection heq1 with heq1
        injection heq1 with hq1 heq1
        injection heq1 with hq2 hq3
        injection hcall with h1 h2
        injection h1 with h1
        injection h1 with hA hB hC
        have hplen : (procs.getD id defaultProcedure).parameters.length ≤ 127 := by
          have hid2 : id < procs.length := by omega
          rw [List.getD_eq_get procs defaultProcedure hid2]
          exact hwf _ (List.get_mem procs id hid2)
        have hlt := findMismatch_lt args (procs.getD id defaultProcedure).parameters 0 i0 e0 f0 hfm
        omega
      next heq1 => exact Option.noConfusion heq1
    | none =>
      rw [hfm] at hcall
      split at hcall
      next i1 e1 f1 heq1 => exact Option.noConfusion heq1
      next heq1 =>
        split at hcall
        next e1 cx heq =>
          injection hcall with h1 h2
          injection h1 with h1
          rcases read_result_error _ e1 cx heq with h | h | h <;>
            (rw [h] at h1; exact Error.noConfusion h1)
        next cx heq =>
          have hcx : cx.procedures = some procs := by
            have h0 := procs_read_result (writeArgs args ((c.write_u8 Request.Call.toNat).write_u16 id))
            rw [heq] at h0
            rw [procs_writeArgs] at h0
            exact h0.trans hc
          rw [getProcedures_cached cx procs hcx] at hcall
          split at hcall
          next e1 c3 heqr =>
            injection heqr with ha hb
            exact Except.noConfusion ha
          next ps2 c3 heqr =>
            injection heqr with ha hb
            injection ha with ha
            subst ha
            subst hb
            split at hcall
            next ret_ty heqret =>
              split at hcall
              next e1 c4 heq4 =>
                injection hcall with h1 h2
                injection h1 with h1
                have hio := Value_read_error ret_ty cx e1 c4 heq4
                rw [hio] at h1
                exact Error.noConfusion h1
              next retval c4 heq4 =>
                injection hcall with h1 h2
                exact Except.noConfusion h1
            next heqret =>
              injection hcall with h1 h2
              exact Except.noConfusion h1

end MicroRPC

namespace MicroRPC

/-! ### Claim theorems -/

/-- C1: counterexample to the claim that `call` reports
`MismatchedArgumentCount` (expected vs found) before per-argument type
validation whenever the supplied argument count differs from the declared
arity.  `Client::call` performs no arity check at all — the validation
loop zips arguments with parameters, silently truncating — so calling the
unary procedure (parameters `[U8]`) with zero arguments is not rejected:
the request bytes `0x02 0x00 0x00` are transmitted and the call succeeds
against a server reply. -/
theorem call_missing_argument_not_detected :
    Client.call ⟨[0x00, 0x00, 0x2A], [], some [⟨0, [Ty.U8], some Ty.U16⟩]⟩ 0 []
      = (.ok (some (Value.U16 42)),
         ⟨[], [0x02, 0x00, 0x00], some [⟨0, [Ty.U8], some Ty.U16⟩]⟩) := by
  rfl

/-- C2: on a `Client` with a populated procedure table (all of whose
entries declare at most 127 parameters, as every `enumerate`-built table
does), `call` with an out-of-range id fails with `ProcOutOfRange`, and
`call` whose first mismatching argument sits at position `i` fails with
`MismatchedArguments i expected found`; in both cases the returned client
is the original one — zero bytes of the Call request reach the channel. -/
theorem call_validation_no_transmission (c : Client) (procs : List Procedure)
    (hc : c.procedures = some procs)
    (hwf : ∀ p ∈ procs, p.parameters.length ≤ 127) :
    (∀ id args, procs.length ≤ id →
      c.call id args = (.error .ProcOutOfRange, c)) ∧
    (∀ id args (hid : id < procs.length) i
      (hia : i < args.length) (hip : i < (procs.get ⟨id, hid⟩).parameters.length),
      (args.get ⟨i, hia⟩).ty ≠ (procs.get ⟨id, hid⟩).parameters.get ⟨i, hip⟩ →
      (∀ j (hj1 : j < args.length) (hj2 : j < (procs.get ⟨id, hid⟩).parameters.length), j < i →
        (args.get ⟨j, hj1⟩).ty = (procs.get ⟨id, hid⟩).parameters.get ⟨j, hj2⟩) →
      c.call id args = (.error (.MismatchedArguments i
        ((procs.get ⟨id, hid⟩).parameters.get ⟨i, hip⟩) ((args.get ⟨i, hia⟩).ty)), c)) := by
  constructor
  · intro id args hid
    rw [call_cached_eq c procs hc id args, if_pos hid]
  · intro id args hid i hia hip hne hfirst
    have hgd : procs.getD id defaultProcedure = procs.get ⟨id, hid⟩ :=
      List.getD_eq_get procs defaultProcedure hid
    have hple : (procs.get ⟨id, hid⟩).parameters.length ≤ 127 :=
      hwf _ (List.get_mem procs id hid)
    have himod : i % 256 = i := Nat.mod_eq_of_lt (by omega)
    rw [call_cached_eq c procs hc id args, if_neg (by omega), hgd,
      findMismatch_first args (procs.get ⟨id, hid⟩).parameters i 0 hia hip hne hfirst]
    simp [himod]

/-- C2 witness: scenario C — with the table `[⟨0, [U8], some U16⟩]`
cached, `call 0 [U16 5]` fails with a mismatch at index 0 (expected U8,
found U16) and the client, channel included, is unchanged. -/
theorem call_validation_no_transmission_witness :
    Client.call ⟨[], [], some [⟨0, [Ty.U8], some Ty.U16⟩]⟩ 0 [Value.U16 5]
      = (.error (.MismatchedArguments 0 Ty.U8 Ty.U16),
         ⟨[], [], some [⟨0, [Ty.U8], some Ty.U16⟩]⟩) := by
  have h := (call_validation_no_transmission ⟨[], [], some [⟨0, [Ty.U8], some Ty.U16⟩]⟩
      [⟨0, [Ty.U8], some Ty.U16⟩] rfl (by decide)).2 0 [Value.U16 5] (by decide) 0
      (by decide) (by decide) (by decide)
      (fun j hj1 hj2 hj => absurd hj (Nat.not_lt_zero j))
  simpa using h

/-- C3: cache replacement by `enumerate` is atomic — if any step fails
(I/O error, version mismatch, or malformed byte anywhere in the table),
the previously cached table is left unchanged; the cache holds the new
table exactly when the entire sequence was read successfully. -/
theorem enumerate_atomic (c : Client) :
    (∀ e c', c.enumerate = (.error e, c') → c'.procedures = c.procedures) ∧
    (∀ ps c', c.enumerate = (.ok ps, c') → c'.procedures = some ps) :=
  ⟨fun e c' h => enumerate_error_procs c e c' h,
   fun ps c' h => enumerate_ok_procs c ps c' h⟩

/-- C3 witness: on an exhausted channel, `enumerate` fails with the I/O
error and the populated cache survives untouched. -/
theorem enumerate_atomic_witness :
    (⟨[], [0], some [defaultProcedure]⟩ : Client).procedures
      = (⟨[], [], some [defaultProcedure]⟩ : Client).procedures :=
  (enumerate_atomic ⟨[], [], some [defaultProcedure]⟩).1 .IoError
    ⟨[], [0], some [defaultProcedure]⟩ rfl

/-- C4: if the version byte the server reports differs from the fixed
constant `VERSION = 0`, `enumerate` fails with `MismatchedVersion` carrying
both versions, having written only the Version request opcode, and no
procedure table is installed in the cache. -/
theorem enumerate_version_mismatch (c : Client) (v : Nat) (rest : List Nat)
    (hin : c.input = 0 :: v :: rest) (hv : v ≠ 0) :
    c.enumerate = (.error (.MismatchedVersion VERSION v),
      { c with input := rest, output := c.output ++ [0] }) ∧
    (c.enumerate).2.procedures = c.procedures := by
  have hv' : (v != VERSION) = true := by simpa [VERSION] using hv
  have h1 : c.enumerate = (.error (.MismatchedVersion VERSION v),
      { c with input := rest, output := c.output ++ [0] }) := by
    rcases c with ⟨inp, out, pr⟩
    simp only [Client.mk.injEq] at hin
    subst hin
    simp [Client.enumerate, Client.write_u8, Client.read_success, Client.read_u8,
      Request.toNat, hv', hv, VERSION]
  exact ⟨h1, by rw [h1]⟩

/-- C4 witness: a server replying success then version byte 9 makes
`enumerate` fail with `MismatchedVersion 0 9`, leaving the cache empty. -/
theorem enumerate_version_mismatch_witness :
    Client.enumerate ⟨[0, 9], [], none⟩
      = (.error (.MismatchedVersion VERSION 9), ⟨[], [0], none⟩) :=
  (enumerate_version_mismatch ⟨[0, 9], [], none⟩ 9 [] rfl (by decide)).1

/-- C5: round trip — decoding with `v.ty` the bytes `encode v` yields `v`
back; `write` appends exactly `encode v` (1 byte for U8, 2 big-endian
bytes for U16); and any value `decode` produces for a requested type has
that type. -/
theorem value_roundtrip (v : Value) (hwf : v.wf) :
    (∀ inp out pr, Value.read v.ty ⟨v.encode ++ inp, out, pr⟩ = (.ok v, ⟨inp, out, pr⟩)) ∧
    (∀ c : Client, v.write c = { c with output := c.output ++ v.encode }) ∧
    v.encode.length = (match v.ty with | .U8 => 1 | .U16 => 2) ∧
    (∀ (t : Ty) (c c' : Client) (w : Value), Value.read t c = (.ok w, c') → w.ty = t) := by
  refine ⟨?_, ?_, ?_, ?_⟩
  · intro inp out pr
    cases v with
    | U8 n =>
      have hn : n < 256 := hwf
      have hm : n % 256 = n := Nat.mod_eq_of_lt hn
      simp [Value.encode, Value.ty, Value.read, Client.read_u8, hm]
    | U16 n =>
      have hn : n < 65536 := hwf
      have hm : n % 65536 = n := Nat.mod_eq_of_lt hn
      have hlor := shiftLeft_eight_lor (n / 256) (n % 256) (Nat.mod_lt n (by norm_num))
      have hdm : n / 256 * 256 + n % 256 = n := by omega
      simp [Value.encode, Value.ty, Value.read, Client.read_u8, hm, hlor, hdm]
  · intro c0
    cases v with
    | U8 n => rfl
    | U16 n =>
      have h1 : n % 65536 / 256 < 256 := by omega
      have h2 : (n % 65536 / 256) % 256 = n % 65536 / 256 := Nat.mod_eq_of_lt h1
      have h3 : n % 256 % 256 = n % 256 := Nat.mod_eq_of_lt (Nat.mod_lt n (by norm_num))
      simp [Value.write, Client.write_u16, Client.write_u8, Value.encode, h2, h3]
  · cases v <;> rfl
  · intro t c0 c' w h
    cases t with
    | U8 =>
      simp only [Value.read] at h
      split at h
      next e c1 heq =>
        injection h with h1 h2
        exact Except.noConfusion h1
      next b c1 heq =>
        injection h with h1 h2
        injection h1 with h1
        subst h1
        rfl
    | U16 =>
      simp only [Value.read] at h
      split at h
      next e c1 heq =>
        injection h with h1 h2
        exact Except.noConfusion h1
      next msb c1 heq =>
        split at h
        next e c2 heq2 =>
          injection h with h1 h2
          exact Except.noConfusion h1
        next lsb c2 heq2 =>
          injection h with h1 h2
          injection h1 with h1
          subst h1
          rfl

/-- C5 witness: the bytes `0x00 0x2A` decode at type U16 to the value 42,
the round trip of encoding `U16 42`. -/
theorem value_roundtrip_witness :
    Value.read Ty.U16 ⟨[0, 42], [], none⟩ = (.ok (Value.U16 42), ⟨[], [], none⟩) := by
  have h := (value_roundtrip (Value.U16 42) (by simp [Value.wf])).1 [] [] none
  exact h

/-- C6: every `Client` operation (`enumerate`, the memoized accessor, and
`call`) preserves the invariant that a populated cache stores at index `i`
a procedure whose id is `i`. -/
theorem client_invariant_preserved (c : Client) (hc : idIndexed c) :
    idIndexed (c.enumerate).2 ∧ idIndexed (c.getProcedures).2 ∧
    ∀ id args, idIndexed ((c.call id args)).2 :=
  ⟨idIndexed_enumerate c hc, idIndexed_getProcedures c hc,
   fun id args => idIndexed_of_eq (procs_call c id args) (idIndexed_getProcedures c hc)⟩

/-- C6 witness: starting from a fresh client (empty cache, hence the
invariant holds vacuously), the invariant still holds after `enumerate`. -/
theorem client_invariant_preserved_witness :
    idIndexed ((⟨[], [], none⟩ : Client).enumerate).2 :=
  (client_invariant_preserved ⟨[], [], none⟩
    (fun _ h => Option.noConfusion h)).1

/-- C7: with a populated cache, the memoized accessor returns the cached
table and the client — channel included — completely unchanged (no I/O);
with an empty cache it is exactly `enumerate`; and after one successful
access, a second access is pure, so two consecutive accesses cost exactly
one handshake and one enumeration on the channel. -/
theorem procedures_memoized (c : Client) :
    (∀ procs, c.procedures = some procs → c.getProcedures = (.ok procs, c)) ∧
    (c.procedures = none → c.getProcedures = c.enumerate) ∧
    (∀ procs c1, c.getProcedures = (.ok procs, c1) → c1.getProcedures = (.ok procs, c1)) :=
  ⟨fun procs h => getProcedures_cached c procs h,
   fun h => getProcedures_none c h,
   fun procs c1 h => getProcedures_cached c1 procs (getProcedures_ok_procs c procs c1 h)⟩

/-- C7 witness: on a client whose cache holds the empty table, the
accessor returns it with the client unchanged. -/
theorem procedures_memoized_witness :
    Client.getProcedures ⟨[], [], some []⟩ = (.ok [], ⟨[], [], some []⟩) :=
  (procedures_memoized ⟨[], [], some []⟩).1 [] rfl

/-- C8: scenario B — with procedure 0 declared as `[U8] -> U16`,
`call 0 [U8 7]` writes exactly the bytes `0x02 0x00 0x00 0x07` (Call
opcode, big-endian id, raw argument payload, no length prefixes), and the
server reply `0x00` then `0x00 0x2A` produces `some (U16 42)`. -/
theorem call_request_layout_scenario :
    Client.call ⟨[0x00, 0x00, 0x2A], [], some [⟨0, [Ty.U8], some Ty.U16⟩]⟩ 0 [Value.U8 7]
      = (.ok (some (Value.U16 42)),
         ⟨[], [0x02, 0x00, 0x00, 0x07], some [⟨0, [Ty.U8], some Ty.U16⟩]⟩) := by
  rfl

/-- C9: the enumeration loop parses each descriptor from its flags byte —
bit 7 says whether a return `Type` follows (read first), the low 7 bits
give the parameter count, then that many parameter `Type`s are read in
order; and concretely a server reporting version 0, count 1, flags `0x81`,
return byte `0x01`, parameter byte `0x00` yields the table
`[⟨0, [U8], some U16⟩]`. -/
theorem enumerate_descriptor_parsing :
    (∀ (i byte0 : Nat) (ret : Option Ty) (ts : List Ty) (rest out : List Nat)
      (pr : Option (List Procedure)),
      ts.length = byte0 &&& 0x7f →
      ret.isSome = (byte0 &&& 0x80 != 0) →
      readProcedure i ⟨byte0 :: ((ret.toList.map Ty.encode) ++ (ts.map Ty.encode ++ rest)), out, pr⟩
        = (.ok ⟨i, ts, ret⟩, ⟨rest, out, pr⟩)) ∧
    Client.enumerate ⟨[0x00, 0x00, 0x00, 0x00, 0x01, 0x81, 0x01, 0x00], [], none⟩
      = (.ok [⟨0, [Ty.U8], some Ty.U16⟩],
         ⟨[], [0x00, 0x01], some [⟨0, [Ty.U8], some Ty.U16⟩]⟩) :=
  ⟨fun i byte0 ret ts rest out pr hlen hret =>
    readProcedure_encode i byte0 ret ts rest out pr hlen hret, by rfl⟩

/-- C9 witness: the descriptor bytes `0x81 0x01 0x00` parse to the
procedure `⟨0, [U8], some U16⟩`. -/
theorem enumerate_descriptor_parsing_witness :
    readProcedure 0 ⟨[0x81, 0x01, 0x00], [], none⟩
      = (.ok ⟨0, [Ty.U8], some Ty.U16⟩, ⟨[], [], none⟩) := by
  have h := enumerate_descriptor_parsing.1 0 0x81 (some Ty.U16) [Ty.U8] [] [] none
    (by decide) (by decide)
  exact h

/-- C10: the two assertions inside `call` cannot fire on a table produced
by `enumerate`: every entry's id equals its index (so `procs[id].id == id`
holds for in-range ids), and any `MismatchedArguments` index a `call` on
that client reports is below 128 (hence below 256, representable as `u8`),
because parameter counts come from the low 7 bits of the flags byte. -/
theorem call_assertions_hold (c : Client) (ps : List Procedure) (c' : Client)
    (henum : c.enumerate = (.ok ps, c')) :
    (∀ i (hi : i < ps.length), (ps.get ⟨i, hi⟩).id = i) ∧
    (∀ id args i e f c2,
      c'.call id args = (.error (.MismatchedArguments i e f), c2) → i < 128) := by
  constructor
  · intro i hi
    exact (enumerate_ok_table c ps c' henum i hi).1
  · exact call_mismatched_index c' ps (enumerate_ok_procs c ps c' henum)
      (fun p hp => by
        obtain ⟨n, hn⟩ := List.get_of_mem hp
        have h2 := (enumerate_ok_table c ps c' henum n.1 n.2).2
        rw [Fin.eta] at h2
        rw [hn] at h2
        exact h2)

/-- C10 witness: after the scenario-A enumeration, the table's entry 0 has
id 0, and the mismatch `call 0 [U16 5]` reports sits at index 0 < 128. -/
theorem call_assertions_hold_witness :
    (([⟨0, [Ty.U8], some Ty.U16⟩] : List Procedure).get ⟨0, by decide⟩).id = 0 ∧
    (0 : Nat) < 128 := by
  have h := call_assertions_hold ⟨[0x00, 0x00, 0x00, 0x00, 0x01, 0x81, 0x01, 0x00], [], none⟩
    [⟨0, [Ty.U8], some Ty.U16⟩]
    ⟨[], [0x00, 0x01], some [⟨0, [Ty.U8], some Ty.U16⟩]⟩ rfl
  exact ⟨h.1 0 (by decide),
    h.2 0 [Value.U16 5] 0 Ty.U8 Ty.U16
      ⟨[], [0x00, 0x01], some [⟨0, [Ty.U8], some Ty.U16⟩]⟩ rfl⟩

end MicroRPC
